import Mathlib

set_option maxHeartbeats 1000000

/-!
Verification of the volar.js position/range translation layer and result
transformation pipeline, shallowly embedded from
packages/language-service/lib/documents.ts and
packages/typescript/lib/node/transform.ts.

Document positions are modelled as byte offsets: the TextDocument
offset/position conversion used by the source is an external collaborator
and is a bijection on in-document values, so every operation factors
through offsets.  Ranges are pairs (start, stop) of offsets, spans are
(start, length) records, and machine strings are String or List Char
values.  External collaborators missing from the sources (the segment
mapping primitives, the file registry and the linked-code map) are
modelled from the spec and marked as such in their doc comments.
-/

/-- Modelled from the spec: the opaque per-segment capability data of the
language-core package.  The spec only distinguishes segments explicitly
marked diagnostics-eligible, so the model keeps a single boolean flag. -/
structure CodeInformation where
  verification : Bool
deriving DecidableEq

/-- Modelled from the spec: the diagnostics capability filter of the
language-core package, true exactly on diagnostics-eligible segments. -/
def shouldReportDiagnostics (data : CodeInformation) : Bool :=
  data.verification

/-- A mapping: parallel arrays of source offsets, generated offsets and
segment lengths, plus opaque capability data, as consumed by
documents.ts. -/
structure Mapping (Data : Type) where
  sourceOffsets : List Nat
  generatedOffsets : List Nat
  lengths : List Nat
  data : Data
deriving DecidableEq

/-- The two offset-array keys of a mapping, as used by the string-typed
CodeRangeKey parameters in documents.ts. -/
inductive CodeRangeKey where
  | sourceOffsets
  | generatedOffsets
deriving DecidableEq

def Mapping.offsetsOf (m : Mapping Data) : CodeRangeKey → List Nat
  | .sourceOffsets => m.sourceOffsets
  | .generatedOffsets => m.generatedOffsets

/-- A segment mapping collection: the ordered list of mappings between one
source document and one generated document. -/
structure SourceMap (Data : Type) where
  mappings : List (Mapping Data)
deriving DecidableEq

/-- Modelled from the spec: the piecewise-linear point translation
primitive of the external segment-mapping collaborator (spec section 6).
A segment translates an offset lying between its start and its start plus
its length by a linear shift; the spec's exact-range property (section 8)
forces the segment end to be inclusive, so that a range end equal to
segment start plus length still translates.  The input is an integer
because transform.ts may pass a negative value after subtracting a
snapshot length. -/
def translateOffset (start : Int) (fromOffsets toOffsets lengths : List Nat) : Option Nat :=
  (fromOffsets.zip (toOffsets.zip lengths)).findSome? fun seg =>
    if (seg.1 : Int) ≤ start ∧ start ≤ (seg.1 : Int) + (seg.2.2 : Int) then
      some (seg.2.1 + (start - (seg.1 : Int)).toNat)
    else
      none

/-- Modelled from the spec: findMatching yields, in mapping declaration
order, every pair of a translated offset and the mapping that produced it,
for the mappings containing the offset on the from side (spec section 6). -/
def SourceMap.findMatching (map : SourceMap Data) (offset : Int)
    (fromKey toKey : CodeRangeKey) : List (Nat × Mapping Data) :=
  map.mappings.filterMap fun m =>
    (translateOffset offset (m.offsetsOf fromKey) (m.offsetsOf toKey) m.lengths).map
      fun o => (o, m)

/-! Embedding of SourceMapWithDocuments (documents.ts).  The source and
generated TextDocuments only serve to convert positions to offsets and
back, so with positions modelled as offsets the class reduces to functions
of the map. -/

/-- Embeds SourceMapWithDocuments.findPositions: all matches of the offset
on the from side whose capability data passes the filter, in declaration
order. -/
def findPositions (map : SourceMap Data) (position : Nat) (filter : Data → Bool)
    (fromKey toKey : CodeRangeKey) : List (Nat × Mapping Data) :=
  (map.findMatching position fromKey toKey).filter fun mapped => filter mapped.2.data

/-- Embeds SourceMapWithDocuments.getSourcePositionsBase. -/
def getSourcePositionsBase (map : SourceMap Data) (position : Nat)
    (filter : Data → Bool) : List (Nat × Mapping Data) :=
  findPositions map position filter .generatedOffsets .sourceOffsets

/-- Embeds SourceMapWithDocuments.getGeneratedPositionsBase. -/
def getGeneratedPositionsBase (map : SourceMap Data) (position : Nat)
    (filter : Data → Bool) : List (Nat × Mapping Data) :=
  findPositions map position filter .sourceOffsets .generatedOffsets

/-- Embeds SourceMapWithDocuments.matchSourcePosition: translate a
generated position through one specific mapping. -/
def matchSourcePosition (position : Nat) (m : Mapping Data) : Option Nat :=
  translateOffset position m.generatedOffsets m.sourceOffsets m.lengths

/-- Embeds SourceMapWithDocuments.matchGeneratedPosition: translate a
source position through one specific mapping. -/
def matchGeneratedPosition (position : Nat) (m : Mapping Data) : Option Nat :=
  translateOffset position m.sourceOffsets m.generatedOffsets m.lengths

/-- Embeds the first loop of SourceMapWithDocuments.findRanges: walk the
start candidates in order; a candidate whose range end resolves through the
same mapping is yielded at once, the others are pushed onto the failed
lookup list in order. -/
def findRangesGo (stop : Nat) (api2 : Nat → Mapping Data → Option Nat) :
    List (Nat × Mapping Data) → List (Nat × Nat) × List (Nat × Mapping Data)
  | [] => ([], [])
  | mapped :: rest =>
    let tail := findRangesGo stop api2 rest
    match api2 stop mapped.2 with
    | some e => ((mapped.1, e) :: tail.1, tail.2)
    | none => (tail.1, mapped :: tail.2)

/-- Embeds SourceMapWithDocuments.findRanges: the first pass yields exact
pairs resolved through a single mapping, then every recorded failed start
is paired with every independently re-resolved end. -/
def findRanges (map : SourceMap Data) (range : Nat × Nat) (filter : Data → Bool)
    (api : SourceMap Data → Nat → (Data → Bool) → List (Nat × Mapping Data))
    (api2 : Nat → Mapping Data → Option Nat) : List (Nat × Nat) :=
  let passes := findRangesGo range.2 api2 (api map range.1 filter)
  passes.1 ++ passes.2.flatMap fun failedLookUp =>
    (api map range.2 filter).map fun mapped => (failedLookUp.1, mapped.1)

/-- Embeds SourceMapWithDocuments.getSourceRanges. -/
def getSourceRanges (map : SourceMap Data) (range : Nat × Nat)
    (filter : Data → Bool) : List (Nat × Nat) :=
  findRanges map range filter getSourcePositionsBase matchSourcePosition

/-- Embeds SourceMapWithDocuments.getGeneratedRanges. -/
def getGeneratedRanges (map : SourceMap Data) (range : Nat × Nat)
    (filter : Data → Bool) : List (Nat × Nat) :=
  findRanges map range filter getGeneratedPositionsBase matchGeneratedPosition

/-- Embeds SourceMapWithDocuments.getSourceRange: first range or nothing. -/
def getSourceRange (map : SourceMap Data) (range : Nat × Nat)
    (filter : Data → Bool) : Option (Nat × Nat) :=
  (getSourceRanges map range filter).head?

/-- Embeds SourceMapWithDocuments.getGeneratedRange. -/
def getGeneratedRange (map : SourceMap Data) (range : Nat × Nat)
    (filter : Data → Bool) : Option (Nat × Nat) :=
  (getGeneratedRanges map range filter).head?

/-- Embeds SourceMapWithDocuments.getSourcePositions. -/
def getSourcePositions (map : SourceMap Data) (position : Nat)
    (filter : Data → Bool) : List Nat :=
  (getSourcePositionsBase map position filter).map fun mapped => mapped.1

/-- Embeds SourceMapWithDocuments.getGeneratedPositions. -/
def getGeneratedPositions (map : SourceMap Data) (position : Nat)
    (filter : Data → Bool) : List Nat :=
  (getGeneratedPositionsBase map position filter).map fun mapped => mapped.1

/-- Embeds SourceMapWithDocuments.getSourcePosition: first match or
nothing. -/
def getSourcePosition (map : SourceMap Data) (position : Nat)
    (filter : Data → Bool) : Option Nat :=
  (getSourcePositions map position filter).head?

/-- Embeds SourceMapWithDocuments.getGeneratedPosition. -/
def getGeneratedPosition (map : SourceMap Data) (position : Nat)
    (filter : Data → Bool) : Option Nat :=
  (getGeneratedPositions map position filter).head?

/-- Modelled from the spec: the external linked-code map lists, per offset,
the offsets the mapping marks as linked to it (spec section 4.2, mirror
variant); an absent offset has no linked offsets. -/
structure LinkedCodeMap where
  links : List (Nat × List Nat)

def LinkedCodeMap.getLinkedOffsets (lm : LinkedCodeMap) (offset : Nat) : List Nat :=
  (lm.links.lookup offset).getD []

/-- Embeds LinkedCodeMapWithDocument.getLinkedCodePositions: the document
conversion is the identity on offsets, so this is getLinkedOffsets. -/
def getLinkedCodePositions (lm : LinkedCodeMap) (position : Nat) : List Nat :=
  lm.getLinkedOffsets position

/-- The spec's two-segment boundary-fallback example: segment A maps source
offsets 0 to 2 onto generated offsets 0 to 2, segment B maps source
offsets 5 to 7 onto generated offsets 3 to 5. -/
def exampleMapAB : SourceMap Unit :=
  ⟨[⟨[0], [0], [2], ()⟩, ⟨[5], [3], [2], ()⟩]⟩

/-- The two-pass characterization of findRangesGo. -/
theorem findRangesGo_eq (stop : Nat) (api2 : Nat → Mapping Data → Option Nat)
    (l : List (Nat × Mapping Data)) :
    findRangesGo stop api2 l =
      (l.filterMap fun mapped => (api2 stop mapped.2).map fun e => (mapped.1, e),
       l.filter fun mapped => (api2 stop mapped.2).isNone) := by
  induction l with
  | nil => rfl
  | cons mapped rest ih =>
    simp only [findRangesGo, ih, List.filterMap_cons, List.filter_cons]
    cases h : api2 stop mapped.2 <;> simp [h]

/-- C1: findRanges follows the two-pass algorithm.  For every range,
filter and position apis, the produced sequence is: first, in candidate
order, each filtered mapped start whose range end re-resolves through the
same mapping instance, paired with exactly that end; then each start
candidate whose same-mapping end lookup failed, paired with every
independently re-resolved (any mapping, filtered) mapping of the range
end.  getSourceRanges and getGeneratedRanges are findRanges at the
corresponding position apis, and on the spec's two disjoint segments A and
B the generated-range query on (1, 6) yields the best-effort pair of A's
mapped start with B's independently resolved end instead of an empty
sequence. -/
theorem C1_findRanges_two_pass :
    (∀ (Data : Type) (map : SourceMap Data) (range : Nat × Nat) (filter : Data → Bool)
      (api : SourceMap Data → Nat → (Data → Bool) → List (Nat × Mapping Data))
      (api2 : Nat → Mapping Data → Option Nat),
      findRanges map range filter api api2 =
        ((api map range.1 filter).filterMap fun mapped =>
          (api2 range.2 mapped.2).map fun e => (mapped.1, e)) ++
        ((api map range.1 filter).filter fun mapped =>
          (api2 range.2 mapped.2).isNone).flatMap
          fun failedLookUp =>
            (api map range.2 filter).map fun mapped => (failedLookUp.1, mapped.1)) ∧
    (∀ (Data : Type) (map : SourceMap Data) (range : Nat × Nat) (filter : Data → Bool),
      getSourceRanges map range filter =
        findRanges map range filter getSourcePositionsBase matchSourcePosition ∧
      getGeneratedRanges map range filter =
        findRanges map range filter getGeneratedPositionsBase matchGeneratedPosition) ∧
    getGeneratedRanges exampleMapAB (1, 6) (fun _ => true) = [(1, 4)] := by
  refine ⟨fun Data map range filter api api2 => ?_, fun _ _ _ _ => ⟨rfl, rfl⟩, by decide⟩
  simp only [findRanges, findRangesGo_eq]

/-! Out-of-bounds behaviour (C8).  An offset beyond every segment of the
map matches nothing; the bound below dominates every segment end. -/

def listMax (l : List Nat) : Nat := l.foldr max 0

theorem le_listMax {l : List Nat} {x : Nat} (h : x ∈ l) : x ≤ listMax l := by
  induction l with
  | nil => cases h
  | cons y rest ih =>
    rcases List.mem_cons.mp h with rfl | h
    · exact le_max_left _ _
    · exact le_trans (ih h) (le_max_right _ _)

/-- A bound above every reachable from-side segment end of one mapping. -/
def Mapping.offsetBound (m : Mapping Data) (key : CodeRangeKey) : Nat :=
  listMax (m.offsetsOf key) + listMax m.lengths

/-- A bound above every reachable from-side segment end of the whole map. -/
def SourceMap.offsetBound (map : SourceMap Data) (key : CodeRangeKey) : Nat :=
  listMax (map.mappings.map fun m => m.offsetBound key)

theorem translateOffset_eq_none {start : Int} {fromOffsets toOffsets lengths : List Nat}
    (h : ∀ f ∈ fromOffsets, ∀ len ∈ lengths, (f : Int) + (len : Int) < start) :
    translateOffset start fromOffsets toOffsets lengths = none := by
  rw [translateOffset, List.findSome?_eq_none_iff]
  intro seg hseg
  have hf : seg.1 ∈ fromOffsets := (List.of_mem_zip hseg).1
  have hlen : seg.2.2 ∈ lengths := (List.of_mem_zip (List.of_mem_zip hseg).2).2
  have := h seg.1 hf seg.2.2 hlen
  simp only [ite_eq_right_iff]
  intro hcond
  exact absurd hcond.2 (by omega)

theorem findMatching_eq_nil {map : SourceMap Data} {fromKey toKey : CodeRangeKey}
    {pos : Int} (h : (map.offsetBound fromKey : Int) < pos) :
    map.findMatching pos fromKey toKey = [] := by
  rw [SourceMap.findMatching, List.filterMap_eq_nil_iff]
  intro m hm
  rw [translateOffset_eq_none, Option.map_none']
  intro f hf len hlen
  have h1 : f ≤ listMax (m.offsetsOf fromKey) := le_listMax hf
  have h2 : len ≤ listMax m.lengths := le_listMax hlen
  have h3 : m.offsetBound fromKey ≤ map.offsetBound fromKey :=
    le_listMax (List.mem_map_of_mem _ hm)
  have h4 : f + len ≤ map.offsetBound fromKey := by
    have : f + len ≤ m.offsetBound fromKey := by
      rw [Mapping.offsetBound]; omega
    omega
  omega

theorem findPositions_eq_nil {map : SourceMap Data} {fromKey toKey : CodeRangeKey}
    {pos : Nat} {filter : Data → Bool} (h : map.offsetBound fromKey < pos) :
    findPositions map pos filter fromKey toKey = [] := by
  rw [findPositions, findMatching_eq_nil (by exact_mod_cast h), List.filter_nil]

/-- C8: no translator query signals failure other than by yielding nothing,
and an out-of-bounds offset simply yields no result: a position beyond
every segment of the map produces an empty sequence from every position
query and every range query starting there, the single-result queries are
the heads of the multi-result sequences (empty optional exactly when the
sequence is empty), and a linked-position query at an unlisted offset
yields the empty sequence. -/
theorem C8_out_of_bounds_yields_nothing :
    (∀ (Data : Type) (map : SourceMap Data) (position : Nat) (filter : Data → Bool),
      (map.offsetBound .sourceOffsets < position →
        getGeneratedPositionsBase map position filter = [] ∧
        getGeneratedPositions map position filter = [] ∧
        getGeneratedPosition map position filter = none ∧
        ∀ stop, getGeneratedRanges map (position, stop) filter = [] ∧
          getGeneratedRange map (position, stop) filter = none) ∧
      (map.offsetBound .generatedOffsets < position →
        getSourcePositionsBase map position filter = [] ∧
        getSourcePositions map position filter = [] ∧
        getSourcePosition map position filter = none ∧
        ∀ stop, getSourceRanges map (position, stop) filter = [] ∧
          getSourceRange map (position, stop) filter = none)) ∧
    (∀ (Data : Type) (map : SourceMap Data) (position : Nat) (filter : Data → Bool),
      (getSourcePosition map position filter = none ↔
        getSourcePositions map position filter = []) ∧
      (getGeneratedPosition map position filter = none ↔
        getGeneratedPositions map position filter = [])) ∧
    (∀ (lm : LinkedCodeMap) (position : Nat),
      (∀ link ∈ lm.links, link.1 ≠ position) →
      getLinkedCodePositions lm position = []) := by
  refine ⟨fun Data map position filter => ⟨fun h => ?_, fun h => ?_⟩,
    fun Data map position filter => ⟨?_, ?_⟩, fun lm position h => ?_⟩
  · have hbase : getGeneratedPositionsBase map position filter = [] :=
      findPositions_eq_nil h
    refine ⟨hbase, ?_, ?_, fun stop => ?_⟩
    · rw [getGeneratedPositions, hbase]; rfl
    · rw [getGeneratedPosition, getGeneratedPositions, hbase]; rfl
    · have hr : getGeneratedRanges map (position, stop) filter = [] := by
        rw [getGeneratedRanges, findRanges, findRangesGo_eq]
        simp [hbase]
      exact ⟨hr, by rw [getGeneratedRange, hr]; rfl⟩
  · have hbase : getSourcePositionsBase map position filter = [] :=
      findPositions_eq_nil h
    refine ⟨hbase, ?_, ?_, fun stop => ?_⟩
    · rw [getSourcePositions, hbase]; rfl
    · rw [getSourcePosition, getSourcePositions, hbase]; rfl
    · have hr : getSourceRanges map (position, stop) filter = [] := by
        rw [getSourceRanges, findRanges, findRangesGo_eq]
        simp [hbase]
      exact ⟨hr, by rw [getSourceRange, hr]; rfl⟩
  · rw [getSourcePosition, List.head?_eq_none_iff]
  · rw [getGeneratedPosition, List.head?_eq_none_iff]
  · rw [getLinkedCodePositions, LinkedCodeMap.getLinkedOffsets]
    have : lm.links.lookup position = none := by
      rw [List.lookup_eq_none_iff]
      intro k hk
      simp only [bne_iff_ne, ne_eq]
      exact fun e => h k hk e.symm
    rw [this]; rfl

/-- Witness for C8 at a concrete out-of-bounds position and a concrete
linked-code map. -/
theorem C8_witness :
    getGeneratedRanges exampleMapAB (100, 101) (fun _ => true) = [] ∧
    getLinkedCodePositions ⟨[(0, [1, 2])]⟩ 5 = [] := by
  exact ⟨(((C8_out_of_bounds_yields_nothing.1 Unit exampleMapAB 100 (fun _ => true)).1
      (by decide)).2.2.2 101).1,
    C8_out_of_bounds_yields_nothing.2.2 ⟨[(0, [1, 2])]⟩ 5 (by decide)⟩

/-! Embedding of the result transformation pipeline (transform.ts).  The
registry lookup getVirtualFileAndMap (utils.ts, not under the provided
sources) is modelled from the spec's registry contract. -/

/-- Modelled from the spec: a handle to a source file; the pipeline only
consumes the snapshot length. -/
structure SourceFile where
  snapshotLength : Nat
deriving DecidableEq

/-- Modelled from the spec: registry lookups (spec section 6).  resolve
returns the paired source file and mapping when the file name denotes a
registered generated document (getVirtualFileAndMap in the source, whose
virtual-code and source-file results are defined together), and
getVirtualCode is the lookup performed by getVirtualCodeByUri, returning a
pair of opaque handles. -/
structure FileRegistry where
  resolve : String → Option (SourceFile × SourceMap CodeInformation)
  getVirtualCode : List Char → List Char → Option Nat × Option Nat

/-- Modelled from the spec: map.getSourceOffsets of the language-core
package, the generated-to-source instance of findMatching. -/
def SourceMap.getSourceOffsets (map : SourceMap Data) (offset : Int) :
    List (Nat × Mapping Data) :=
  map.findMatching offset .generatedOffsets .sourceOffsets

/-- Embeds transformRange (transform.ts): walk the filtered source
mappings of the start offset; for the first one, return it with the first
filtered source mapping of the end offset that is not smaller; generated
offsets are rebased by subtracting the source snapshot length before the
lookup. -/
def transformRange (sourceFile : SourceFile) (map : SourceMap CodeInformation)
    (start stop : Nat) (filter : CodeInformation → Bool) : Option (Nat × Nat) :=
  (map.getSourceOffsets ((start : Int) - (sourceFile.snapshotLength : Int))).findSome?
    fun sourceStart =>
      if filter sourceStart.2.data then
        (map.getSourceOffsets ((stop : Int) - (sourceFile.snapshotLength : Int))).findSome?
          fun sourceEnd =>
            if sourceStart.1 ≤ sourceEnd.1 ∧ filter sourceEnd.2.data then
              some (sourceStart.1, sourceEnd.1)
            else
              none
      else
        none

/-- A TypeScript text span: start offset and length. -/
structure TextSpan where
  start : Nat
  length : Nat
deriving DecidableEq

/-- Embeds transformSpan (transform.ts): nothing without a file name or
span; an unregistered file name returns the span unchanged; a registered
generated document translates the offsets through transformRange. -/
def transformSpan (files : FileRegistry) (fileName : Option String)
    (textSpan : Option TextSpan) (filter : CodeInformation → Bool) :
    Option (String × TextSpan) :=
  match fileName, textSpan with
  | none, _ => none
  | some _, none => none
  | some fileName, some textSpan =>
    match files.resolve fileName with
    | some (sourceFile, map) =>
      (transformRange sourceFile map textSpan.start (textSpan.start + textSpan.length)
          filter).map
        fun sourceRange => (fileName, ⟨sourceRange.1, sourceRange.2 - sourceRange.1⟩)
    | none => some (fileName, textSpan)

/-- A single TypeScript text change: span plus replacement text. -/
structure TextChange where
  span : TextSpan
  newText : String
deriving DecidableEq

/-- A TypeScript FileTextChanges batch. -/
structure FileTextChanges where
  fileName : String
  textChanges : List TextChange
deriving DecidableEq

/-- Embeds transformFileTextChanges (transform.ts): on a registered
generated document each edit's span is transformed independently, edits
whose span fails to map are dropped; otherwise the batch is returned
unchanged. -/
def transformFileTextChanges (files : FileRegistry) (changes : FileTextChanges)
    (filter : CodeInformation → Bool) : FileTextChanges :=
  match files.resolve changes.fileName with
  | some _ =>
    { changes with
      textChanges := changes.textChanges.filterMap fun c =>
        (transformSpan files (some changes.fileName) (some c.span) filter).map
          fun span => { c with span := span.2 } }
  | none => changes

/-- A TypeScript DocumentSpan restricted to the fields transform.ts
touches. -/
structure DocumentSpan where
  fileName : String
  textSpan : TextSpan
  contextSpan : Option TextSpan
  originalFileName : Option String
  originalTextSpan : Option TextSpan
  originalContextSpan : Option TextSpan
deriving DecidableEq

/-- Embeds transformDocumentSpan (transform.ts): the primary span failing
to transform drops the result unless the fallback is requested and the
file is a registered generated document, in which case a zero-length span
at offset 0 is substituted; the three optional spans are each transformed
independently. -/
def transformDocumentSpan (files : FileRegistry) (documentSpan : DocumentSpan)
    (filter : CodeInformation → Bool) (shouldFallback : Bool) : Option DocumentSpan :=
  let textSpan0 :=
    transformSpan files (some documentSpan.fileName) (some documentSpan.textSpan) filter
  let textSpan :=
    match textSpan0 with
    | some t => some t
    | none =>
      if shouldFallback then
        match files.resolve documentSpan.fileName with
        | some _ => some (documentSpan.fileName, (⟨0, 0⟩ : TextSpan))
        | none => none
      else
        none
  match textSpan with
  | none => none
  | some textSpan =>
    let contextSpan :=
      transformSpan files (some documentSpan.fileName) documentSpan.contextSpan filter
    let originalTextSpan :=
      transformSpan files documentSpan.originalFileName documentSpan.originalTextSpan filter
    let originalContextSpan :=
      transformSpan files documentSpan.originalFileName documentSpan.originalContextSpan
        filter
    some { documentSpan with
      fileName := textSpan.1
      textSpan := textSpan.2
      contextSpan := contextSpan.map fun s => s.2
      originalFileName := originalTextSpan.map fun s => s.1
      originalTextSpan := originalTextSpan.map fun s => s.2
      originalContextSpan := originalContextSpan.map fun s => s.2 }

/-- Every value findSome? returns comes from an element of the list. -/
theorem findSome?_mem {f : α → Option β} {l : List α} {b : β}
    (h : l.findSome? f = some b) : ∃ a ∈ l, f a = some b := by
  induction l with
  | nil => simp [List.findSome?] at h
  | cons x rest ih =>
    rw [List.findSome?] at h
    cases hx : f x with
    | some y => rw [hx] at h; exact ⟨x, List.mem_cons_self x rest, hx.trans h⟩
    | none =>
      rw [hx] at h
      obtain ⟨a, ha, hfa⟩ := ih h
      exact ⟨a, List.mem_cons_of_mem x ha, hfa⟩

/-- A successful transformRange result pairs a filtered source mapping of
the start with a filtered source mapping of the end, and never inverts the
range. -/
theorem transformRange_spec {sourceFile : SourceFile} {map : SourceMap CodeInformation}
    {start stop : Nat} {filter : CodeInformation → Bool} {s e : Nat}
    (h : transformRange sourceFile map start stop filter = some (s, e)) :
    s ≤ e ∧
    (∃ ms ∈ map.getSourceOffsets ((start : Int) - (sourceFile.snapshotLength : Int)),
      ms.1 = s ∧ filter ms.2.data = true) ∧
    (∃ me ∈ map.getSourceOffsets ((stop : Int) - (sourceFile.snapshotLength : Int)),
      me.1 = e ∧ filter me.2.data = true) := by
  obtain ⟨ms, hms, hfs⟩ := findSome?_mem h
  by_cases hf : filter ms.2.data
  · rw [if_pos hf] at hfs
    obtain ⟨me, hme, hfe⟩ := findSome?_mem hfs
    by_cases hc : ms.1 ≤ me.1 ∧ filter me.2.data
    · rw [if_pos hc] at hfe
      obtain ⟨rfl, rfl⟩ : ms.1 = s ∧ me.1 = e := by
        injection hfe with h2
        exact ⟨congrArg Prod.fst h2, congrArg Prod.snd h2⟩
      exact ⟨hc.1, ⟨ms, hms, rfl, hf⟩, ⟨me, hme, rfl, hc.2⟩⟩
    · rw [if_neg hc] at hfe
      cases hfe
  · rw [if_neg hf] at hfs
    cases hfs

/-- A two-mapping registry entry used to compare transformRange with
getSourceRange: the first mapping sends source offsets 3 to 5 onto
generated offsets 4 to 6, the second sends source offsets 0 to 10 onto
generated offsets 0 to 10. -/
def map2 : SourceMap CodeInformation :=
  ⟨[⟨[3], [4], [2], ⟨true⟩⟩, ⟨[0], [0], [10], ⟨true⟩⟩]⟩

/-- A registry resolving exactly the generated document foo.ts with a zero
snapshot length and map2. -/
def files2 : FileRegistry where
  resolve := fun fileName => if fileName = "foo.ts" then some (⟨0⟩, map2) else none
  getVirtualCode := fun _ _ => (none, none)

/-- C2 counterexample: on the registered generated document foo.ts with
map2, the span at offset 0 of length 5 transforms to the span at offset 0
of length 4 (transformRange pairs the start from the second mapping with
the independently resolved, not smaller end from the first mapping), while
the translator's getSourceRange on the same range and filter first yields
the pair (0, 5) through the second mapping alone — so the pipeline's
offsets do not equal the first getSourceRange result. -/
theorem C2_counterexample :
    transformSpan files2 (some "foo.ts") (some ⟨0, 5⟩) (fun _ => true) =
      some ("foo.ts", ⟨0, 4⟩) ∧
    getSourceRange map2 (0, 5) (fun _ => true) = some (0, 5) ∧
    (⟨0, 4⟩ : TextSpan) ≠ (⟨0, 5⟩ : TextSpan) := by
  refine ⟨by decide, by decide, by decide⟩

/-- C2 amended: the resolution rule stands — a file name that resolves to
no registered generated document returns the span unchanged, and a
registered one translates the span's offsets through transformRange — but
transformRange resolves the start and end offsets independently over the
filtered mappings, only requiring the source end not to precede the source
start, and its result need not equal the first result of getSourceRange. -/
theorem C2_transformSpan_resolution :
    (∀ (files : FileRegistry) (fileName : String) (sp : TextSpan)
      (filter : CodeInformation → Bool),
      files.resolve fileName = none →
      transformSpan files (some fileName) (some sp) filter = some (fileName, sp)) ∧
    (∀ (files : FileRegistry) (fileName : String) (sp : TextSpan)
      (filter : CodeInformation → Bool) (sourceFile : SourceFile)
      (map : SourceMap CodeInformation),
      files.resolve fileName = some (sourceFile, map) →
      transformSpan files (some fileName) (some sp) filter =
        (transformRange sourceFile map sp.start (sp.start + sp.length) filter).map
          fun sourceRange => (fileName, ⟨sourceRange.1, sourceRange.2 - sourceRange.1⟩)) ∧
    (∀ (sourceFile : SourceFile) (map : SourceMap CodeInformation)
      (start stop : Nat) (filter : CodeInformation → Bool) (s e : Nat),
      transformRange sourceFile map start stop filter = some (s, e) →
      s ≤ e ∧
      (∃ ms ∈ map.getSourceOffsets ((start : Int) - (sourceFile.snapshotLength : Int)),
        ms.1 = s ∧ filter ms.2.data = true) ∧
      (∃ me ∈ map.getSourceOffsets ((stop : Int) - (sourceFile.snapshotLength : Int)),
        me.1 = e ∧ filter me.2.data = true)) := by
  refine ⟨fun files fileName sp filter h => ?_, fun files fileName sp filter sf map h => ?_,
    fun sf map start stop filter s e h => transformRange_spec h⟩
  · rw [transformSpan, h]
  · rw [transformSpan, h]

/-- Witness for C2's amended theorem at concrete inputs: bar.ts is
unregistered and passes through, foo.ts resolves through map2. -/
theorem C2_witness :
    transformSpan files2 (some "bar.ts") (some ⟨1, 2⟩) (fun _ => true) =
      some ("bar.ts", ⟨1, 2⟩) ∧
    (transformSpan files2 (some "foo.ts") (some ⟨0, 5⟩) (fun _ => true) =
      (transformRange ⟨0⟩ map2 0 5 (fun _ => true)).map
        fun sourceRange => ("foo.ts", ⟨sourceRange.1, sourceRange.2 - sourceRange.1⟩)) ∧
    0 ≤ 4 := by
  refine ⟨C2_transformSpan_resolution.1 files2 "bar.ts" ⟨1, 2⟩ (fun _ => true) (by decide),
    ?_, (C2_transformSpan_resolution.2.2 ⟨0⟩ map2 0 5 (fun _ => true) 0 4 (by decide)).1⟩
  have h := C2_transformSpan_resolution.2.1 files2 "foo.ts" ⟨0, 5⟩ (fun _ => true) ⟨0⟩ map2
    (by decide)
  simpa using h

/-- C9: whenever transformSpan succeeds on a registered generated
document, the produced span is never inverted: transformRange only accepts
a source end offset at least the chosen source start offset, and the
returned span is exactly that pair rendered as start and nonnegative
length. -/
theorem C9_no_inverted_span :
    ∀ (files : FileRegistry) (fileName : String) (sp : TextSpan)
      (filter : CodeInformation → Bool) (sourceFile : SourceFile)
      (map : SourceMap CodeInformation) (r : String × TextSpan),
      files.resolve fileName = some (sourceFile, map) →
      transformSpan files (some fileName) (some sp) filter = some r →
      ∃ s e, transformRange sourceFile map sp.start (sp.start + sp.length) filter =
          some (s, e) ∧
        s ≤ e ∧ r.2.start = s ∧ r.2.length = e - s ∧ r.2.start + r.2.length = e := by
  intro files fileName sp filter sourceFile map r hres h
  simp only [transformSpan, hres] at h
  cases htr : transformRange sourceFile map sp.start (sp.start + sp.length) filter with
  | none => rw [htr] at h; simp at h
  | some se =>
    rw [htr] at h
    obtain ⟨s, e⟩ := se
    have hle := (transformRange_spec htr).1
    obtain rfl : (fileName, (⟨s, e - s⟩ : TextSpan)) = r := by simpa using h
    exact ⟨s, e, rfl, hle, rfl, rfl, by show s + (e - s) = e; omega⟩

/-- Witness for C9 at the concrete foo.ts span. -/
theorem C9_witness :
    ∃ s e, transformRange ⟨0⟩ map2 0 5 (fun _ => true) = some (s, e) ∧
      s ≤ e ∧ (0 : Nat) = s ∧ (4 : Nat) = e - s ∧ 0 + 4 = e := by
  have h := C9_no_inverted_span files2 "foo.ts" ⟨0, 5⟩ (fun _ => true) ⟨0⟩ map2
    ("foo.ts", ⟨0, 4⟩) (by decide) (by decide)
  simpa using h

/-- filterMap over an optional transform is the filter of the mappable
elements followed by the transform of each. -/
theorem filterMap_opt_eq_filter_map {α β : Type} (l : List α) (g : α → Option β)
    (h : α → β → α) :
    (l.filterMap fun c => (g c).map (h c)) =
      (l.filter fun c => (g c).isSome).map fun c => (((g c).map (h c)).getD c) := by
  induction l with
  | nil => rfl
  | cons x rest ih =>
    rw [List.filterMap_cons, List.filter_cons]
    cases hx : g x with
    | none => simpa [hx] using ih
    | some b => simpa [hx] using ih

/-- A single-mapping registry entry: gen.ts is generated with snapshot
length 0, its only mapping sends source offsets 10 to 15 onto generated
offsets 0 to 5. -/
def mapG : SourceMap CodeInformation :=
  ⟨[⟨[10], [0], [5], ⟨true⟩⟩]⟩

def files3 : FileRegistry where
  resolve := fun fileName => if fileName = "gen.ts" then some (⟨0⟩, mapG) else none
  getVirtualCode := fun _ _ => (none, none)

/-- The three-edit batch of the spec's edit-filtering property: the middle
edit's span lies outside every mapping. -/
def changes3 : FileTextChanges :=
  ⟨"gen.ts", [⟨⟨0, 1⟩, "aa"⟩, ⟨⟨100, 1⟩, "bb"⟩, ⟨⟨2, 1⟩, "cc"⟩]⟩

/-- C7: on a registered generated document, transformFileTextChanges keeps
exactly the edits whose spans map, in their original relative order, each
with its span replaced by the transformed span and its replacement text
carried over unchanged; every output edit takes its replacement text from
an input edit; an unregistered file name returns the batch unchanged; and
on the concrete three-edit batch with one unmappable span the output is
exactly the two mappable edits with their texts verbatim. -/
theorem C7_text_changes_filtering :
    (∀ (files : FileRegistry) (changes : FileTextChanges)
      (filter : CodeInformation → Bool) (sourceFile : SourceFile)
      (map : SourceMap CodeInformation),
      files.resolve changes.fileName = some (sourceFile, map) →
      transformFileTextChanges files changes filter =
        { changes with
          textChanges :=
            (changes.textChanges.filter fun c =>
              (transformSpan files (some changes.fileName) (some c.span) filter).isSome).map
              fun c =>
                (((transformSpan files (some changes.fileName) (some c.span) filter).map
                  fun span => { c with span := span.2 }).getD c) }) ∧
    (∀ (files : FileRegistry) (changes : FileTextChanges)
      (filter : CodeInformation → Bool),
      files.resolve changes.fileName = none →
      transformFileTextChanges files changes filter = changes) ∧
    (∀ (files : FileRegistry) (changes : FileTextChanges)
      (filter : CodeInformation → Bool) (c' : TextChange),
      c' ∈ (transformFileTextChanges files changes filter).textChanges →
      ∃ c ∈ changes.textChanges, c'.newText = c.newText) ∧
    transformFileTextChanges files3 changes3 (fun _ => true) =
      ⟨"gen.ts", [⟨⟨10, 1⟩, "aa"⟩, ⟨⟨12, 1⟩, "cc"⟩]⟩ := by
  refine ⟨fun files changes filter sourceFile map h => ?_, fun files changes filter h => ?_,
    fun files changes filter c' h => ?_, by decide⟩
  · rw [transformFileTextChanges, h, filterMap_opt_eq_filter_map]
  · rw [transformFileTextChanges, h]
  · rw [transformFileTextChanges] at h
    cases hres : files.resolve changes.fileName with
    | none => rw [hres] at h; exact ⟨c', h, rfl⟩
    | some p =>
      rw [hres] at h
      simp only [List.mem_filterMap] at h
      obtain ⟨c, hc, hmap⟩ := h
      cases hsp : transformSpan files (some changes.fileName) (some c.span) filter with
      | none => rw [hsp] at hmap; cases hmap
      | some span =>
        rw [hsp] at hmap
        refine ⟨c, hc, ?_⟩
        obtain rfl : ({ c with span := span.2 } : TextChange) = c' := by simpa using hmap
        rfl

/-- Witness for C7 at concrete inputs: gen.ts is registered, other.ts is
not. -/
theorem C7_witness :
    transformFileTextChanges files3 changes3 (fun _ => true) =
      { changes3 with
        textChanges :=
          (changes3.textChanges.filter fun c =>
            (transformSpan files3 (some changes3.fileName) (some c.span)
              (fun _ => true)).isSome).map
            fun c =>
              (((transformSpan files3 (some changes3.fileName) (some c.span)
                (fun _ => true)).map fun span => { c with span := span.2 }).getD c) } ∧
    transformFileTextChanges files3 ⟨"other.ts", [⟨⟨0, 1⟩, "x"⟩]⟩ (fun _ => true) =
      ⟨"other.ts", [⟨⟨0, 1⟩, "x"⟩]⟩ := by
  exact ⟨C7_text_changes_filtering.1 files3 changes3 (fun _ => true) ⟨0⟩ mapG (by decide),
    C7_text_changes_filtering.2.1 files3 ⟨"other.ts", [⟨⟨0, 1⟩, "x"⟩]⟩ (fun _ => true)
      (by decide)⟩

/-- C6: when the primary text span of a document span fails to transform,
transformDocumentSpan returns nothing with the fallback disabled; with the
fallback enabled on a registered generated document it returns the item
with the zero-length span at offset 0 as primary span and the original
file name, while the context, original and original-context spans are each
transformed independently, a failing optional span becoming an absent
field of the surviving result. -/
theorem C6_document_span_fallback :
    ∀ (files : FileRegistry) (documentSpan : DocumentSpan)
      (filter : CodeInformation → Bool),
      transformSpan files (some documentSpan.fileName) (some documentSpan.textSpan)
        filter = none →
      transformDocumentSpan files documentSpan filter false = none ∧
      (∀ (sourceFile : SourceFile) (map : SourceMap CodeInformation),
        files.resolve documentSpan.fileName = some (sourceFile, map) →
        transformDocumentSpan files documentSpan filter true =
          some { documentSpan with
            textSpan := ⟨0, 0⟩
            contextSpan :=
              (transformSpan files (some documentSpan.fileName)
                documentSpan.contextSpan filter).map fun s => s.2
            originalFileName :=
              (transformSpan files documentSpan.originalFileName
                documentSpan.originalTextSpan filter).map fun s => s.1
            originalTextSpan :=
              (transformSpan files documentSpan.originalFileName
                documentSpan.originalTextSpan filter).map fun s => s.2
            originalContextSpan :=
              (transformSpan files documentSpan.originalFileName
                documentSpan.originalContextSpan filter).map fun s => s.2 }) := by
  intro files documentSpan filter h
  constructor
  · rw [transformDocumentSpan]
    simp only [h]
    rfl
  · intro sourceFile map hres
    rw [transformDocumentSpan]
    simp only [h, hres]
    rfl

/-- Witness for C6: on files3 the primary span at offset 100 is
unmappable; the fallback substitutes the zero-length span while the
context span still transforms. -/
theorem C6_witness :
    transformDocumentSpan files3 ⟨"gen.ts", ⟨100, 1⟩, some ⟨0, 1⟩, none, none, none⟩
      (fun _ => true) false = none ∧
    transformDocumentSpan files3 ⟨"gen.ts", ⟨100, 1⟩, some ⟨0, 1⟩, none, none, none⟩
      (fun _ => true) true =
      some ⟨"gen.ts", ⟨0, 0⟩, some ⟨10, 1⟩, none, none, none⟩ := by
  refine ⟨(C6_document_span_fallback files3 _ (fun _ => true) (by decide)).1, ?_⟩
  have h := (C6_document_span_fallback files3
    ⟨"gen.ts", ⟨100, 1⟩, some ⟨0, 1⟩, none, none, none⟩ (fun _ => true) (by decide)).2
    ⟨0⟩ mapG (by decide)
  rw [h]
  decide

/-! Embedding of the virtual-code URI scheme (documents.ts).  JavaScript
strings are modelled as char lists; startsWith, jsIncludes and jsSplit
model the String methods used by getVirtualCodeByUri: includes and
split with a string separator (split scans left to right and cuts at each
leftmost occurrence; the separator in use is never empty). -/

def startsWith : List Char → List Char → Bool
  | _, [] => true
  | [], _ :: _ => false
  | c :: s, p :: ps => c == p && startsWith s ps

def jsIncludes (s sub : List Char) : Bool :=
  match s with
  | [] => startsWith [] sub
  | _ :: rest => startsWith s sub || jsIncludes rest sub

def jsSplit (sep s acc : List Char) : List (List Char) :=
  match s with
  | [] => [acc]
  | c :: rest =>
    if h : sep ≠ [] ∧ startsWith (c :: rest) sep = true then
      acc :: jsSplit sep ((c :: rest).drop sep.length) []
    else
      jsSplit sep rest (acc ++ [c])
termination_by s.length
decreasing_by
  · have hlen : 1 ≤ sep.length := by
      cases hs : sep with
      | nil => exact absurd hs h.1
      | cons _ _ => simp
    simp only [List.length_drop, List.length_cons]
    omega
  · simp only [List.length_cons]
    omega

/-- The separator string of the virtual-code URI scheme. -/
def virtualCodeSep : List Char := "?virtualCodeId=".toList

/-- Embeds getVirtualCodeUri (documents.ts): append the separator and the
virtual code id to the source file uri. -/
def getVirtualCodeUri (sourceFileUri virtualCodeId : List Char) : List Char :=
  sourceFileUri ++ virtualCodeSep ++ virtualCodeId

/-- Embeds getVirtualCodeByUri (documents.ts): a uri containing the
separator is split on it; the first part and the second part are looked up
in the registry; otherwise the result is the absent pair. -/
def getVirtualCodeByUri (files : FileRegistry) (uri : List Char) :
    Option Nat × Option Nat :=
  if jsIncludes uri virtualCodeSep = true then
    files.getVirtualCode ((jsSplit virtualCodeSep uri []).getD 0 [])
      ((jsSplit virtualCodeSep uri []).getD 1 [])
  else
    (none, none)

theorem jsSplit_nil (sep acc : List Char) : jsSplit sep [] acc = [acc] := by
  rw [jsSplit]

theorem jsSplit_cons (sep : List Char) (c : Char) (rest acc : List Char) :
    jsSplit sep (c :: rest) acc =
      if sep ≠ [] ∧ startsWith (c :: rest) sep = true then
        acc :: jsSplit sep ((c :: rest).drop sep.length) []
      else
        jsSplit sep rest (acc ++ [c]) := by
  rw [jsSplit]
  simp only [dite_eq_ite]

theorem startsWith_iff_append {pat s : List Char} :
    startsWith s pat = true ↔ ∃ t, s = pat ++ t := by
  induction pat generalizing s with
  | nil => simp [startsWith]
  | cons p ps ih =>
    cases s with
    | nil => simp [startsWith]
    | cons c s' =>
      simp only [startsWith, Bool.and_eq_true, beq_iff_eq, ih, List.cons_append,
        List.cons.injEq]
      constructor
      · rintro ⟨rfl, t, rfl⟩
        exact ⟨t, rfl, rfl⟩
      · rintro ⟨t, rfl, rfl⟩
        exact ⟨rfl, t, rfl⟩

theorem jsIncludes_append_of_startsWith {sep t : List Char}
    (h : startsWith t sep = true) : ∀ s : List Char, jsIncludes (s ++ t) sep = true := by
  intro s
  induction s with
  | nil =>
    cases t with
    | nil => simpa [jsIncludes] using h
    | cons c rest => simp [jsIncludes, h]
  | cons c s' ih => simp [jsIncludes, ih]

theorem jsIncludes_of_drop {sep s : List Char} {i : Nat}
    (h : startsWith (s.drop i) sep = true) : jsIncludes s sep = true := by
  induction s generalizing i with
  | nil => simpa [jsIncludes] using h
  | cons c s' ih =>
    cases i with
    | zero => simp only [List.drop_zero] at h; simp [jsIncludes, h]
    | succ i' =>
      have := ih (i := i') (by simpa using h)
      simp [jsIncludes, this]

theorem jsSplit_no_occurrence {sep v : List Char} (hv : jsIncludes v sep = false) :
    ∀ acc, jsSplit sep v acc = [acc ++ v] := by
  induction v with
  | nil => intro acc; simp [jsSplit_nil]
  | cons c rest ih =>
    intro acc
    have hparts : startsWith (c :: rest) sep = false ∧ jsIncludes rest sep = false := by
      have := hv
      rw [jsIncludes] at this
      exact ⟨(Bool.or_eq_false_iff.mp this).1, (Bool.or_eq_false_iff.mp this).2⟩
    rw [jsSplit_cons, if_neg]
    · rw [ih hparts.2]
      simp
    · rintro ⟨_, hsw⟩
      rw [hparts.1] at hsw
      cases hsw

theorem jsSplit_append {sep v : List Char} (hsep : sep ≠ []) :
    ∀ (s acc : List Char),
      (∀ i, i < s.length → startsWith ((s ++ sep ++ v).drop i) sep = false) →
      jsSplit sep (s ++ sep ++ v) acc = (acc ++ s) :: jsSplit sep v [] := by
  intro s
  induction s with
  | nil =>
    intro acc _
    simp only [List.nil_append, List.append_nil]
    obtain ⟨p, ps, hs⟩ : ∃ p ps, sep = p :: ps := by
      cases sep with
      | nil => exact absurd rfl hsep
      | cons p ps => exact ⟨p, ps, rfl⟩
    have hform : sep ++ v = p :: (ps ++ v) := by rw [hs]; rfl
    have hsw : startsWith (p :: (ps ++ v)) sep = true := by
      rw [← hform]
      exact startsWith_iff_append.mpr ⟨v, rfl⟩
    rw [hform, jsSplit_cons, if_pos ⟨hsep, hsw⟩, ← hform, List.drop_left]
  | cons c s' ih =>
    intro acc hno
    have h0 : startsWith (c :: (s' ++ sep ++ v)) sep = false := by
      have := hno 0 (by simp)
      simpa using this
    simp only [List.cons_append]
    rw [jsSplit_cons, if_neg]
    · rw [ih (acc ++ [c]) ?_]
      · simp
      · intro i hi
        have := hno (i + 1) (by simp only [List.length_cons]; omega)
        simpa using this
    · rintro ⟨_, hsw⟩
      rw [hsw] at h0
      cases h0

/-- A separator all of whose splittings into a nonempty suffix and a
nonempty prefix disagree: no proper nonempty border. -/
def Unbordered (sep : List Char) : Prop :=
  ∀ k < sep.length, 0 < k → sep.drop k ≠ sep.take (sep.length - k)

theorem no_straddle {sep : List Char} (hub : Unbordered sep)
    {s : List Char} (hs : jsIncludes s sep = false) (v : List Char) :
    ∀ i, i < s.length → startsWith ((s ++ sep ++ v).drop i) sep = false := by
  intro i hi
  cases hb : startsWith ((s ++ sep ++ v).drop i) sep with
  | false => rfl
  | true =>
    exfalso
    obtain ⟨t, ht⟩ := startsWith_iff_append.mp hb
    have hdrop : (s ++ sep ++ v).drop i = s.drop i ++ (sep ++ v) := by
      rw [List.append_assoc, List.drop_append_eq_append_drop]
      have hz : i - s.length = 0 := by omega
      rw [hz, List.drop_zero]
    rw [hdrop] at ht
    have hklen : (s.drop i).length = s.length - i := by simp
    by_cases hcase : sep.length ≤ s.length - i
    · have htake : (s.drop i).take sep.length = sep := by
        have := congrArg (List.take sep.length) ht
        rw [List.take_append_of_le_length (by omega), List.take_left] at this
        exact this
      have : startsWith (s.drop i) sep = true := by
        refine startsWith_iff_append.mpr ⟨(s.drop i).drop sep.length, ?_⟩
        conv_lhs => rw [← List.take_append_drop sep.length (s.drop i)]
        rw [htake]
      rw [jsIncludes_of_drop this] at hs
      cases hs
    · have hklt : s.length - i < sep.length := by omega
      have hkpos : 0 < s.length - i := by omega
      have hL : (s.drop i ++ (sep ++ v)).drop (s.length - i) = sep ++ v := by
        rw [← hklen, List.drop_left]
      have hR : (sep ++ t).drop (s.length - i) =
          sep.drop (s.length - i) ++ t := by
        rw [List.drop_append_eq_append_drop]
        have hz : s.length - i - sep.length = 0 := by omega
        rw [hz, List.drop_zero]
      have heq2 : sep ++ v = sep.drop (s.length - i) ++ t := by
        rw [← hL, ht]
        exact hR
      have hdl : (sep.drop (s.length - i)).length = sep.length - (s.length - i) := by
        simp
      have hR2 : (sep.drop (s.length - i) ++ t).take (sep.length - (s.length - i)) =
          sep.drop (s.length - i) := by
        rw [← hdl, List.take_left]
      have h2 := congrArg (List.take (sep.length - (s.length - i))) heq2
      rw [List.take_append_of_le_length (by omega), hR2] at h2
      exact hub (s.length - i) hklt hkpos h2.symm

theorem virtualCodeSep_ne_nil : virtualCodeSep ≠ [] := by decide

theorem virtualCodeSep_unbordered : Unbordered virtualCodeSep := by
  unfold Unbordered
  decide

/-- C10: getVirtualCodeUri and getVirtualCodeByUri round-trip.  For source
file uris and virtual code ids that do not contain the separator, parsing
the built uri recovers exactly the original pair and performs the registry
lookup on it; a uri without the separator parses to the absent pair. -/
theorem C10_uri_round_trip :
    (∀ (files : FileRegistry) (sourceFileUri virtualCodeId : List Char),
      jsIncludes sourceFileUri virtualCodeSep = false →
      jsIncludes virtualCodeId virtualCodeSep = false →
      jsSplit virtualCodeSep (getVirtualCodeUri sourceFileUri virtualCodeId) [] =
        [sourceFileUri, virtualCodeId] ∧
      getVirtualCodeByUri files (getVirtualCodeUri sourceFileUri virtualCodeId) =
        files.getVirtualCode sourceFileUri virtualCodeId) ∧
    (∀ (files : FileRegistry) (uri : List Char),
      jsIncludes uri virtualCodeSep = false →
      getVirtualCodeByUri files uri = (none, none)) := by
  constructor
  · intro files sourceFileUri virtualCodeId hs hv
    have hsplit : jsSplit virtualCodeSep
        (sourceFileUri ++ virtualCodeSep ++ virtualCodeId) [] =
        [sourceFileUri, virtualCodeId] := by
      rw [jsSplit_append virtualCodeSep_ne_nil sourceFileUri []
        (no_straddle virtualCodeSep_unbordered hs virtualCodeId)]
      rw [jsSplit_no_occurrence hv []]
      simp
    have hinc : jsIncludes (sourceFileUri ++ virtualCodeSep ++ virtualCodeId)
        virtualCodeSep = true := by
      rw [List.append_assoc]
      exact jsIncludes_append_of_startsWith
        (startsWith_iff_append.mpr ⟨virtualCodeId, rfl⟩) sourceFileUri
    refine ⟨hsplit, ?_⟩
    rw [getVirtualCodeByUri, getVirtualCodeUri, if_pos hinc, hsplit]
    rfl
  · intro files uri huri
    rw [getVirtualCodeByUri, if_neg]
    rw [huri]
    exact Bool.false_ne_true

/-- Witness for C10 at concrete strings. -/
theorem C10_witness :
    jsSplit virtualCodeSep
      (getVirtualCodeUri ("file.vue".toList) ("ts".toList)) [] =
      ["file.vue".toList, "ts".toList] ∧
    getVirtualCodeByUri files3 (getVirtualCodeUri ("file.vue".toList) ("ts".toList)) =
      files3.getVirtualCode ("file.vue".toList) ("ts".toList) ∧
    getVirtualCodeByUri files3 ("file.vue".toList) = (none, none) := by
  have h := C10_uri_round_trip.1 files3 ("file.vue".toList) ("ts".toList)
    (by decide) (by decide)
  exact ⟨h.1, h.2, C10_uri_round_trip.2 files3 ("file.vue".toList) (by decide)⟩

/-! Embedding of createDocumentProvider's get (documents.ts).  A snapshot's
object identity is modelled by an id field; getText is modelled by the
text field, and each invocation of getText is recorded in a log.  A
created TextDocument carries the global creation counter as its version,
which makes any two created instances distinguishable. -/

structure Snapshot where
  id : Nat
  text : String
deriving DecidableEq

structure Document where
  uri : String
  languageId : String
  version : Nat
  text : String
deriving DecidableEq

/-- The provider state: the version counter, the snapshot-keyed two-level
cache and the log of getText invocations as (snapshot id, uri) pairs. -/
structure DocumentStore where
  version : Nat
  snapshot2Doc : List (Nat × List (String × Document))
  getTextLog : List (Nat × String)
deriving DecidableEq

def emptyStore : DocumentStore := ⟨0, [], []⟩

/-- Replace the first binding of a key in an association list, or add it. -/
def assocSet {α β : Type} [BEq α] : List (α × β) → α → β → List (α × β)
  | [], k, v => [(k, v)]
  | (k', v') :: rest, k, v =>
    if k' == k then (k, v) :: rest else (k', v') :: assocSet rest k v

/-- Embeds the get closure of createDocumentProvider: ensure the
snapshot's inner map exists, then return the cached document for the uri
or create one, reading the snapshot text and bumping the version
counter. -/
def DocumentStore.get (st : DocumentStore) (uri languageId : String)
    (snapshot : Snapshot) : DocumentStore × Document :=
  let st1 :=
    if (st.snapshot2Doc.lookup snapshot.id).isSome then st
    else { st with snapshot2Doc := (snapshot.id, []) :: st.snapshot2Doc }
  let inner := (st1.snapshot2Doc.lookup snapshot.id).getD []
  match inner.lookup uri with
  | some doc => (st1, doc)
  | none =>
    let doc : Document := ⟨uri, languageId, st1.version, snapshot.text⟩
    ({ st1 with
        version := st1.version + 1
        getTextLog := st1.getTextLog ++ [(snapshot.id, uri)]
        snapshot2Doc := assocSet st1.snapshot2Doc snapshot.id ((uri, doc) :: inner) },
     doc)

structure DocRequest where
  uri : String
  languageId : String
  snapshot : Snapshot
deriving DecidableEq

/-- Run a sequence of get requests, collecting the returned documents. -/
def runStore : DocumentStore → List DocRequest → DocumentStore × List Document
  | st, [] => (st, [])
  | st, r :: rest =>
    let step := st.get r.uri r.languageId r.snapshot
    let tail := runStore step.1 rest
    (tail.1, step.2 :: tail.2)

/-- The cached document of a (snapshot id, uri) pair, if any. -/
def storedDoc (st : DocumentStore) (sid : Nat) (uri : String) : Option Document :=
  ((st.snapshot2Doc.lookup sid).getD []).lookup uri

theorem lookup_assocSet_self {α β : Type} [BEq α] [LawfulBEq α]
    (l : List (α × β)) (k : α) (v : β) : (assocSet l k v).lookup k = some v := by
  induction l with
  | nil => simp [assocSet, List.lookup]
  | cons p rest ih =>
    obtain ⟨k', v'⟩ := p
    rw [assocSet]
    by_cases h : k' = k
    · subst h
      simp [List.lookup]
    · rw [if_neg (by simpa using h), List.lookup]
      have : (k == k') = false := by simpa using Ne.symm h
      rw [this]
      exact ih

theorem lookup_assocSet_ne {α β : Type} [BEq α] [LawfulBEq α]
    (l : List (α × β)) (k : α) (v : β) {k' : α} (h : k' ≠ k) :
    (assocSet l k v).lookup k' = l.lookup k' := by
  induction l with
  | nil =>
    simp only [assocSet, List.lookup]
    have : (k' == k) = false := by simpa using h
    rw [this]
  | cons p rest ih =>
    obtain ⟨a, b⟩ := p
    rw [assocSet]
    by_cases ha : a = k
    · subst ha
      rw [if_pos (by simp)]
      simp only [List.lookup]
      have h1 : (k' == a) = false := by simpa using h
      rw [h1]
    · rw [if_neg (by simpa using ha)]
      simp only [List.lookup]
      cases hk : k' == a
      · exact ih
      · rfl

theorem get_of_hit {st : DocumentStore} {u l : String} {s : Snapshot} {doc : Document}
    (h : storedDoc st s.id u = some doc) : st.get u l s = (st, doc) := by
  rw [storedDoc] at h
  cases ho : st.snapshot2Doc.lookup s.id with
  | none =>
    rw [ho] at h
    simp [List.lookup] at h
  | some inner =>
    rw [ho] at h
    simp only [Option.getD_some] at h
    rw [DocumentStore.get]
    simp only [ho, Option.isSome_some, if_true, Option.getD_some, h]

theorem get_of_miss {st : DocumentStore} {u l : String} {s : Snapshot}
    (h : storedDoc st s.id u = none) :
    st.get u l s =
      ({ version := st.version + 1
         snapshot2Doc := assocSet
           (if (st.snapshot2Doc.lookup s.id).isSome then st.snapshot2Doc
            else (s.id, []) :: st.snapshot2Doc) s.id
           ((u, (⟨u, l, st.version, s.text⟩ : Document)) ::
             ((st.snapshot2Doc.lookup s.id).getD []))
         getTextLog := st.getTextLog ++ [(s.id, u)] },
       ⟨u, l, st.version, s.text⟩) := by
  rw [storedDoc] at h
  cases ho : st.snapshot2Doc.lookup s.id with
  | none =>
    rw [ho] at h
    rw [DocumentStore.get]
    simp only [ho, Option.isSome_none, Bool.false_eq_true, if_false]
    have hl : List.lookup s.id ((s.id, ([] : List (String × Document))) :: st.snapshot2Doc) =
        some [] := by
      simp [List.lookup]
    have hl2 : List.lookup u ([] : List (String × Document)) = none := by
      simp [List.lookup]
    simp only [hl, Option.getD_some, hl2, Option.getD_none]
  | some inner =>
    rw [ho] at h
    simp only [Option.getD_some] at h
    rw [DocumentStore.get]
    simp only [ho, Option.isSome_some, if_true, Option.getD_some, h]

theorem storedDoc_get_self (st : DocumentStore) (u l : String) (s : Snapshot) :
    storedDoc (st.get u l s).1 s.id u = some (st.get u l s).2 := by
  cases h : storedDoc st s.id u with
  | some doc => rw [get_of_hit h]; exact h
  | none =>
    rw [get_of_miss h]
    rw [storedDoc]
    rw [lookup_assocSet_self]
    simp [List.lookup]

theorem storedDoc_get_other {st : DocumentStore} {u l : String} {s : Snapshot}
    {sid' : Nat} {uri' : String} (hne : ¬(sid' = s.id ∧ uri' = u)) :
    storedDoc (st.get u l s).1 sid' uri' = storedDoc st sid' uri' := by
  cases h : storedDoc st s.id u with
  | some doc => rw [get_of_hit h]
  | none =>
    rw [get_of_miss h]
    by_cases hsid : sid' = s.id
    · subst hsid
      have huri : uri' ≠ u := fun he => hne ⟨rfl, he⟩
      rw [storedDoc, storedDoc, lookup_assocSet_self, Option.getD_some]
      have hstep : List.lookup uri'
          ((u, (⟨u, l, st.version, s.text⟩ : Document)) ::
            ((st.snapshot2Doc.lookup s.id).getD [])) =
          List.lookup uri' ((st.snapshot2Doc.lookup s.id).getD []) := by
        rw [List.lookup]
        have : (uri' == u) = false := by simpa using huri
        rw [this]
      rw [hstep]
    · rw [storedDoc, storedDoc, lookup_assocSet_ne _ _ _ hsid]
      by_cases houter : (st.snapshot2Doc.lookup s.id).isSome
      · rw [if_pos houter]
      · rw [if_neg houter]
        have hstep : List.lookup sid' ((s.id, ([] : List (String × Document))) ::
            st.snapshot2Doc) = List.lookup sid' st.snapshot2Doc := by
          rw [List.lookup]
          have : (sid' == s.id) = false := by simpa using hsid
          rw [this]
        rw [hstep]

theorem get_snd_of_miss {st : DocumentStore} {u l : String} {s : Snapshot}
    (h : storedDoc st s.id u = none) :
    (st.get u l s).2 = ⟨u, l, st.version, s.text⟩ := by
  rw [get_of_miss h]

theorem get_fst_version_of_miss {st : DocumentStore} {u l : String} {s : Snapshot}
    (h : storedDoc st s.id u = none) :
    (st.get u l s).1.version = st.version + 1 := by
  rw [get_of_miss h]

theorem get_fst_log_of_miss {st : DocumentStore} {u l : String} {s : Snapshot}
    (h : storedDoc st s.id u = none) :
    (st.get u l s).1.getTextLog = st.getTextLog ++ [(s.id, u)] := by
  rw [get_of_miss h]

/-- The store invariant: the getText log has no duplicates and lists
exactly the cached pairs; every cached document's version is below the
counter; and the version determines the cache key. -/
structure StoreInv (st : DocumentStore) : Prop where
  nodupLog : st.getTextLog.Nodup
  logIff : ∀ sid uri, (sid, uri) ∈ st.getTextLog ↔ (storedDoc st sid uri).isSome
  docBound : ∀ sid uri doc, storedDoc st sid uri = some doc → doc.version < st.version
  versionInj : ∀ sid uri doc sid' uri' doc',
    storedDoc st sid uri = some doc → storedDoc st sid' uri' = some doc' →
    doc.version = doc'.version → sid = sid' ∧ uri = uri'

theorem storeInv_empty : StoreInv emptyStore := by
  constructor
  · exact List.nodup_nil
  · intro sid uri
    simp [emptyStore, storedDoc, List.lookup]
  · intro sid uri doc h
    simp [emptyStore, storedDoc, List.lookup] at h
  · intro sid uri doc sid' uri' doc' h
    simp [emptyStore, storedDoc, List.lookup] at h

theorem storedDoc_get_persist {st : DocumentStore} {u l : String} {s : Snapshot}
    {sid : Nat} {uri : String} {doc : Document}
    (h : storedDoc st sid uri = some doc) :
    storedDoc (st.get u l s).1 sid uri = some doc := by
  by_cases hp : sid = s.id ∧ uri = u
  · obtain ⟨rfl, rfl⟩ := hp
    rw [get_of_hit h]
    exact h
  · rw [storedDoc_get_other hp]
    exact h

theorem get_log_iff {st : DocumentStore} (hInv : StoreInv st) (u l : String)
    (s : Snapshot) (sid : Nat) (uri : String) :
    (sid, uri) ∈ (st.get u l s).1.getTextLog ↔
      ((sid, uri) ∈ st.getTextLog ∨ (sid = s.id ∧ uri = u)) := by
  cases h : storedDoc st s.id u with
  | none =>
    rw [get_fst_log_of_miss h]
    simp [Prod.ext_iff]
  | some doc =>
    rw [get_of_hit h]
    constructor
    · exact Or.inl
    · rintro (hm | ⟨h1, h2⟩)
      · exact hm
      · rw [h1, h2]
        exact (hInv.logIff s.id u).mpr (by rw [h]; rfl)

theorem storeInv_get {st : DocumentStore} (hInv : StoreInv st) (u l : String)
    (s : Snapshot) : StoreInv (st.get u l s).1 := by
  cases h : storedDoc st s.id u with
  | some doc =>
    rw [get_of_hit h]
    exact hInv
  | none =>
    have hself : storedDoc (st.get u l s).1 s.id u =
        some ⟨u, l, st.version, s.text⟩ := by
      have := storedDoc_get_self st u l s
      rw [get_snd_of_miss h] at this
      exact this
    have hver := get_fst_version_of_miss (l := l) h
    have hlog := get_fst_log_of_miss (l := l) h
    constructor
    · rw [hlog, List.nodup_append]
      refine ⟨hInv.nodupLog, by simp, ?_⟩
      intro a ha hb
      simp only [List.mem_singleton] at hb
      subst hb
      have := (hInv.logIff s.id u).mp ha
      rw [h] at this
      cases this
    · intro sid uri
      rw [hlog]
      simp only [List.mem_append, List.mem_singleton, Prod.ext_iff]
      by_cases hp : sid = s.id ∧ uri = u
      · rw [hp.1, hp.2, hself]
        simp
      · rw [storedDoc_get_other hp]
        rw [hInv.logIff sid uri]
        constructor
        · rintro (hm | hm)
          · exact hm
          · exact absurd hm hp
        · exact Or.inl
    · intro sid uri doc hdoc
      rw [hver]
      by_cases hp : sid = s.id ∧ uri = u
      · rw [hp.1, hp.2, hself] at hdoc
        have hd : (⟨u, l, st.version, s.text⟩ : Document) = doc := by
          injection hdoc
        have hdv : doc.version = st.version := by rw [← hd]
        omega
      · rw [storedDoc_get_other hp] at hdoc
        have := hInv.docBound sid uri doc hdoc
        omega
    · intro sid uri doc sid' uri' doc' hdoc hdoc' hv
      by_cases hp : sid = s.id ∧ uri = u
      · by_cases hp' : sid' = s.id ∧ uri' = u
        · exact ⟨hp.1.trans hp'.1.symm, hp.2.trans hp'.2.symm⟩
        · exfalso
          rw [hp.1, hp.2, hself] at hdoc
          have hd : (⟨u, l, st.version, s.text⟩ : Document) = doc := by
            injection hdoc
          have hdv : doc.version = st.version := by rw [← hd]
          rw [storedDoc_get_other hp'] at hdoc'
          have hb := hInv.docBound sid' uri' doc' hdoc'
          omega
      · by_cases hp' : sid' = s.id ∧ uri' = u
        · exfalso
          rw [hp'.1, hp'.2, hself] at hdoc'
          have hd : (⟨u, l, st.version, s.text⟩ : Document) = doc' := by
            injection hdoc'
          have hdv : doc'.version = st.version := by rw [← hd]
          rw [storedDoc_get_other hp] at hdoc
          have hb := hInv.docBound sid uri doc hdoc
          omega
        · rw [storedDoc_get_other hp'] at hdoc'
          rw [storedDoc_get_other hp] at hdoc
          exact hInv.versionInj sid uri doc sid' uri' doc' hdoc hdoc' hv

theorem runStore_length (reqs : List DocRequest) :
    ∀ st, (runStore st reqs).2.length = reqs.length := by
  induction reqs with
  | nil => intro st; rfl
  | cons r rest ih =>
    intro st
    simp only [runStore, List.length_cons]
    rw [ih]

theorem runStore_spec (reqs : List DocRequest) :
    ∀ (st : DocumentStore), StoreInv st →
      StoreInv (runStore st reqs).1 ∧
      (∀ sid uri doc, storedDoc st sid uri = some doc →
        storedDoc (runStore st reqs).1 sid uri = some doc) ∧
      (∀ p ∈ reqs.zip (runStore st reqs).2,
        storedDoc (runStore st reqs).1 p.1.snapshot.id p.1.uri = some p.2) ∧
      (∀ sid uri, (sid, uri) ∈ (runStore st reqs).1.getTextLog ↔
        ((sid, uri) ∈ st.getTextLog ∨ ∃ r ∈ reqs, r.snapshot.id = sid ∧ r.uri = uri)) := by
  induction reqs with
  | nil =>
    intro st hInv
    refine ⟨hInv, fun sid uri doc h => h, by simp [runStore], ?_⟩
    intro sid uri
    simp [runStore]
  | cons r rest ih =>
    intro st hInv
    have hInv1 := storeInv_get hInv r.uri r.languageId r.snapshot
    obtain ⟨ihInv, ihPersist, ihZip, ihLog⟩ :=
      ih (st.get r.uri r.languageId r.snapshot).1 hInv1
    refine ⟨ihInv, ?_, ?_, ?_⟩
    · intro sid uri doc h
      exact ihPersist sid uri doc (storedDoc_get_persist h)
    · intro p hp
      simp only [runStore, List.zip_cons_cons, List.mem_cons] at hp
      rcases hp with rfl | hp
      · exact ihPersist _ _ _ (storedDoc_get_self st r.uri r.languageId r.snapshot)
      · exact ihZip p hp
    · intro sid uri
      simp only [runStore]
      rw [ihLog sid uri, get_log_iff hInv r.uri r.languageId r.snapshot sid uri]
      simp only [List.mem_cons]
      constructor
      · rintro ((hm | ⟨h1, h2⟩) | ⟨r', hr', h1, h2⟩)
        · exact Or.inl hm
        · exact Or.inr ⟨r, Or.inl rfl, h1.symm, h2.symm⟩
        · exact Or.inr ⟨r', Or.inr hr', h1, h2⟩
      · rintro (hm | ⟨r', (rfl | hr'), h1, h2⟩)
        · exact Or.inl (Or.inl hm)
        · exact Or.inl (Or.inr ⟨h1.symm, h2.symm⟩)
        · exact Or.inr ⟨r', hr', h1, h2⟩

/-- C5: the Document Store get is keyed by snapshot identity paired with
uri.  Over any request sequence from the empty provider: the getText log
has no duplicate (snapshot, uri) pair and contains exactly the requested
pairs (getText runs exactly once per distinct pair over all calls); each
request receives the document cached for its pair, so equal (uri, snapshot
identity) requests receive the same Document instance; and two requests
with the same uri, identical snapshot text but distinct snapshot identity
receive distinct Document instances. -/
theorem C5_document_store :
    ∀ requests : List DocRequest,
      (runStore emptyStore requests).1.getTextLog.Nodup ∧
      (∀ sid uri, (sid, uri) ∈ (runStore emptyStore requests).1.getTextLog ↔
        ∃ r ∈ requests, r.snapshot.id = sid ∧ r.uri = uri) ∧
      (runStore emptyStore requests).2.length = requests.length ∧
      (∀ p ∈ requests.zip (runStore emptyStore requests).2,
        ∀ q ∈ requests.zip (runStore emptyStore requests).2,
        (p.1.uri = q.1.uri → p.1.snapshot.id = q.1.snapshot.id → p.2 = q.2) ∧
        (p.1.snapshot.text = q.1.snapshot.text → p.1.snapshot.id ≠ q.1.snapshot.id →
          p.2 ≠ q.2)) := by
  intro requests
  obtain ⟨hInv, _, hZip, hLog⟩ := runStore_spec requests emptyStore storeInv_empty
  refine ⟨hInv.nodupLog, ?_, runStore_length requests emptyStore, ?_⟩
  · intro sid uri
    rw [hLog sid uri]
    simp [emptyStore]
  · intro p hp q hq
    have hp' := hZip p hp
    have hq' := hZip q hq
    constructor
    · intro hu hid
      rw [hu, hid] at hp'
      rw [hp'] at hq'
      exact Option.some.inj hq'
    · intro _ hid heq
      rw [heq] at hp'
      have := hInv.versionInj _ _ _ _ _ _ hp' hq' rfl
      exact hid this.1

def snapX : Snapshot := ⟨1, "x"⟩

def snapY : Snapshot := ⟨2, "x"⟩

def reqC5 : List DocRequest :=
  [⟨"a.ts", "ts", snapX⟩, ⟨"a.ts", "ts", snapY⟩, ⟨"a.ts", "ts", snapX⟩]

/-- Witness for C5: the same snapshot requested twice yields the same
version-0 document, a text-identical snapshot with a different identity
yields a distinct (version-1) document, and the getText log stays
duplicate-free. -/
theorem C5_witness :
    ((⟨"a.ts", "ts", 0, "x"⟩ : Document) = ⟨"a.ts", "ts", 0, "x"⟩) ∧
    ((⟨"a.ts", "ts", 0, "x"⟩ : Document) ≠ ⟨"a.ts", "ts", 1, "x"⟩) ∧
    (runStore emptyStore reqC5).1.getTextLog.Nodup := by
  refine ⟨?_, ?_, (C5_document_store reqC5).1⟩
  · exact ((C5_document_store reqC5).2.2.2
      (⟨"a.ts", "ts", snapX⟩, ⟨"a.ts", "ts", 0, "x"⟩) (by decide)
      (⟨"a.ts", "ts", snapX⟩, ⟨"a.ts", "ts", 0, "x"⟩) (by decide)).1 rfl rfl
  · exact ((C5_document_store reqC5).2.2.2
      (⟨"a.ts", "ts", snapX⟩, ⟨"a.ts", "ts", 0, "x"⟩) (by decide)
      (⟨"a.ts", "ts", snapY⟩, ⟨"a.ts", "ts", 1, "x"⟩) (by decide)).2 rfl (by decide)

/-! Embedding of transformDiagnostic (transform.ts).  The diagnostic
object graph is a finite heap of n nodes; object identity is the heap
index.  The WeakMap memo, the in-place reassignment of a diagnostic's
relatedInformation field and the entry order of processed diagnostics are
carried in an explicit state.  A transform result is either the same heap
node (returned unchanged) or a fresh object recording the base node, the
translated span and the related list it was spread with.  The recursion
reads the original heap related list: the source destructures the field on
entry to the uncached branch, and a node's field is only ever reassigned
inside its own uncached branch after the memo slot is reserved, so at that
read the field still holds its original value.  The recursion is presented
with explicit fuel; its termination theorem shows any fuel above the
number of unmemoized nodes suffices. -/

structure DiagData (n : Nat) where
  file : Option String
  start : Option Nat
  length : Option Nat
  relatedInformation : Option (List (Fin n))

inductive TDiag (n : Nat) : Type where
  | node (i : Fin n)
  | fresh (base : Fin n) (start length : Nat)
      (relatedInformation : Option (List (TDiag n)))

structure TState (n : Nat) where
  memo : Fin n → Option (Option (TDiag n))
  rel : Fin n → Option (List (TDiag n))
  trace : List (Fin n)

/-- The state before any transform: empty memo, every relatedInformation
field holding its original node list, nothing processed. -/
def initState {n : Nat} (heap : Fin n → DiagData n) : TState n :=
  ⟨fun _ => none,
   fun i => ((heap i).relatedInformation).map fun l => l.map TDiag.node,
   []⟩

def uncachedFn {n : Nat} (m : Fin n → Option (Option (TDiag n))) : Nat :=
  ((Finset.univ : Finset (Fin n)).filter fun i => (m i).isNone = true).card

def uncached {n : Nat} (st : TState n) : Nat := uncachedFn st.memo

/-- Run a fallible step over each list element in order, threading the
state; fail if any step fails. -/
def processListO {n : Nat}
    (f : TState n → Fin n → Option (TState n × Option (TDiag n))) :
    TState n → List (Fin n) → Option (TState n × List (Option (TDiag n)))
  | st, [] => some (st, [])
  | st, i :: rest =>
    match f st i with
    | none => none
    | some step =>
      match processListO f step.1 rest with
      | none => none
      | some tail => some (tail.1, step.2 :: tail.2)

/-- The span branch of transformDiagnostic: with a file, start and length
present, a registered generated document translates the span through
transformRange under the diagnostics filter, building a fresh object on
success and nothing on failure; otherwise the diagnostic is returned
unchanged. -/
def spanResult {n : Nat} (heap : Fin n → DiagData n) (files : FileRegistry)
    (d : Fin n) (relOut : Option (List (TDiag n))) : Option (TDiag n) :=
  match (heap d).file, (heap d).start, (heap d).length with
  | some fileName, some start, some len =>
    match files.resolve fileName with
    | some (sourceFile, map) =>
      (transformRange sourceFile map start (start + len)
          shouldReportDiagnostics).map
        fun r => TDiag.fresh d r.1 (r.2 - r.1) relOut
    | none => some (.node d)
  | _, _, _ => some (.node d)

/-- Embeds transformDiagnostic (transform.ts) with explicit fuel: the memo
slot answers immediately when present; otherwise it is reserved as
undefined and the node is recorded as processed, the related diagnostics
are transformed depth-first and the field is reassigned to the surviving
results, then the node's own span is transformed and the memo slot is
finalized. -/
def transformDiagFuel {n : Nat} (heap : Fin n → DiagData n) (files : FileRegistry) :
    Nat → TState n → Fin n → Option (TState n × Option (TDiag n))
  | 0, _, _ => none
  | fuel + 1, st, d =>
    match st.memo d with
    | some r => some (st, r)
    | none =>
      let st1 : TState n :=
        { st with memo := Function.update st.memo d (some none),
                  trace := st.trace ++ [d] }
      match (heap d).relatedInformation with
      | none =>
        let result := spanResult heap files d none
        some ({ st1 with memo := Function.update st1.memo d (some result) }, result)
      | some l =>
        match processListO (transformDiagFuel heap files fuel) st1 l with
        | none => none
        | some (st2, rs) =>
          let ts := rs.filterMap id
          let st3 : TState n := { st2 with rel := Function.update st2.rel d (some ts) }
          let result := spanResult heap files d (some ts)
          some ({ st3 with memo := Function.update st3.memo d (some result) }, result)

/-- The fuel-free entry point: the termination theorem shows this fuel
always suffices. -/
def transformDiagnostic {n : Nat} (heap : Fin n → DiagData n) (files : FileRegistry)
    (st : TState n) (d : Fin n) : Option (TState n × Option (TDiag n)) :=
  transformDiagFuel heap files (uncached st + 1) st d

theorem isSome_update {n : Nat} {m : Fin n → Option (Option (TDiag n))} {d : Fin n}
    {v : Option (TDiag n)} {j : Fin n} (hj : (m j).isSome) :
    ((Function.update m d (some v)) j).isSome := by
  by_cases h : j = d
  · subst h
    rw [Function.update_same]
    rfl
  · rw [Function.update_noteq h]
    exact hj

theorem uncachedFn_mono {n : Nat} {m m' : Fin n → Option (Option (TDiag n))}
    (h : ∀ i, (m i).isSome → (m' i).isSome) : uncachedFn m' ≤ uncachedFn m := by
  apply Finset.card_le_card
  intro i hi
  simp only [Finset.mem_filter, Finset.mem_univ, true_and] at hi ⊢
  cases hm : m i with
  | none => rfl
  | some v =>
    have h2 := h i (by rw [hm]; rfl)
    rw [Option.isNone_iff_eq_none] at hi
    rw [hi] at h2
    cases h2

theorem uncachedFn_update_lt {n : Nat} {m : Fin n → Option (Option (TDiag n))}
    {d : Fin n} (h : m d = none) (r : Option (TDiag n)) :
    uncachedFn (Function.update m d (some r)) < uncachedFn m := by
  apply Finset.card_lt_card
  rw [Finset.ssubset_iff_of_subset]
  · refine ⟨d, ?_, ?_⟩
    · simp only [Finset.mem_filter, Finset.mem_univ, true_and, h]
      rfl
    · simp only [Finset.mem_filter, Finset.mem_univ, true_and, Function.update_same]
      simp
  · intro i hi
    simp only [Finset.mem_filter, Finset.mem_univ, true_and] at hi ⊢
    by_cases hd : i = d
    · subst hd
      rw [Function.update_same] at hi
      cases hi
    · rw [Function.update_noteq hd] at hi
      exact hi

theorem processListO_memo_mono {n : Nat}
    {f : TState n → Fin n → Option (TState n × Option (TDiag n))}
    (hf : ∀ st i st' r, f st i = some (st', r) →
      ∀ j, (st.memo j).isSome → (st'.memo j).isSome) :
    ∀ (l : List (Fin n)) (st st' : TState n) (rs : List (Option (TDiag n))),
      processListO f st l = some (st', rs) →
      ∀ j, (st.memo j).isSome → (st'.memo j).isSome := by
  intro l
  induction l with
  | nil =>
    intro st st' rs h j hj
    simp only [processListO, Option.some.injEq, Prod.mk.injEq] at h
    rw [← h.1]
    exact hj
  | cons i rest ih =>
    intro st st' rs h j hj
    simp only [processListO] at h
    split at h
    · cases h
    · rename_i step hf1
      split at h
      · cases h
      · rename_i tail hrest
        simp only [Option.some.injEq, Prod.mk.injEq] at h
        rw [← h.1]
        exact ih step.1 tail.1 tail.2 hrest j
          (hf st i step.1 step.2 (by rw [hf1]) j hj)

theorem transformDiagFuel_memo_mono {n : Nat} (heap : Fin n → DiagData n)
    (files : FileRegistry) :
    ∀ (fuel : Nat) (st : TState n) (d : Fin n) (st' : TState n)
      (r : Option (TDiag n)),
      transformDiagFuel heap files fuel st d = some (st', r) →
      ∀ j, (st.memo j).isSome → (st'.memo j).isSome := by
  intro fuel
  induction fuel with
  | zero =>
    intro st d st' r h
    simp [transformDiagFuel] at h
  | succ fuel ih =>
    intro st d st' r h j hj
    simp only [transformDiagFuel] at h
    split at h
    · rename_i r0 hmemo
      simp only [Option.some.injEq, Prod.mk.injEq] at h
      rw [← h.1]
      exact hj
    · rename_i hmemo
      split at h
      · rename_i hrel
        simp only [Option.some.injEq, Prod.mk.injEq] at h
        rw [← h.1]
        exact isSome_update (isSome_update hj)
      · rename_i l hrel
        split at h
        · cases h
        · rename_i st2 rs hpl
          simp only [Option.some.injEq, Prod.mk.injEq] at h
          rw [← h.1]
          refine isSome_update ?_
          exact processListO_memo_mono ih l _ st2 rs hpl j (isSome_update hj)

theorem processListO_isSome {n : Nat}
    {f : TState n → Fin n → Option (TState n × Option (TDiag n))}
    (hmono : ∀ st i st' r, f st i = some (st', r) →
      ∀ j, (st.memo j).isSome → (st'.memo j).isSome)
    {B : Nat} (hsuf : ∀ (st : TState n) (i : Fin n), uncached st < B → (f st i).isSome) :
    ∀ (l : List (Fin n)) (st : TState n), uncached st < B →
      (processListO f st l).isSome := by
  intro l
  induction l with
  | nil =>
    intro st h
    simp [processListO]
  | cons i rest ih =>
    intro st h
    cases hf : f st i with
    | none =>
      have := hsuf st i h
      rw [hf] at this
      cases this
    | some step =>
      have hm : uncached step.1 ≤ uncached st :=
        uncachedFn_mono (hmono st i step.1 step.2 (by rw [hf]))
      cases hrest : processListO f step.1 rest with
      | none =>
        have := ih step.1 (lt_of_le_of_lt hm h)
        rw [hrest] at this
        cases this
      | some tail =>
        simp only [processListO, hf, hrest]
        rfl

theorem transformDiagFuel_isSome {n : Nat} (heap : Fin n → DiagData n)
    (files : FileRegistry) :
    ∀ (fuel : Nat) (st : TState n) (d : Fin n), uncached st < fuel →
      (transformDiagFuel heap files fuel st d).isSome := by
  intro fuel
  induction fuel with
  | zero =>
    intro st d h
    exact absurd h (Nat.not_lt_zero _)
  | succ fuel ih =>
    intro st d h
    simp only [transformDiagFuel]
    cases hmemo : st.memo d with
    | some r => simp
    | none =>
      cases hrel : (heap d).relatedInformation with
      | none => simp
      | some l =>
        have hlt : uncached ({ st with
              memo := Function.update st.memo d (some none),
              trace := st.trace ++ [d] } : TState n) < fuel := by
          have hstep := uncachedFn_update_lt
            (show st.memo d = none from hmemo) (none : Option (TDiag n))
          have hb : uncachedFn st.memo < fuel + 1 := h
          show uncachedFn (Function.update st.memo d (some none)) < fuel
          omega
        have hpl := processListO_isSome (transformDiagFuel_memo_mono heap files fuel)
          (fun st i hst => ih st i hst) l
          { st with
            memo := Function.update st.memo d (some none),
            trace := st.trace ++ [d] } hlt
        cases hpl2 : processListO (transformDiagFuel heap files fuel)
            { st with
              memo := Function.update st.memo d (some none),
              trace := st.trace ++ [d] } l with
        | none =>
          rw [hpl2] at hpl
          cases hpl
        | some p =>
          simp only [hpl2]
          rfl

theorem processListO_trace_rel {n : Nat}
    {f : TState n → Fin n → Option (TState n × Option (TDiag n))}
    (hf : ∀ st i st' r, f st i = some (st', r) →
      (∀ j, j ∈ (st : TState n).trace → j ∈ st'.trace) ∧
      (∀ j, j ∉ st'.trace → st'.rel j = st.rel j ∧ st'.memo j = st.memo j)) :
    ∀ (l : List (Fin n)) (st st' : TState n) (rs : List (Option (TDiag n))),
      processListO f st l = some (st', rs) →
      (∀ j, j ∈ st.trace → j ∈ st'.trace) ∧
      (∀ j, j ∉ st'.trace → st'.rel j = st.rel j ∧ st'.memo j = st.memo j) := by
  intro l
  induction l with
  | nil =>
    intro st st' rs h
    simp only [processListO, Option.some.injEq, Prod.mk.injEq] at h
    rw [← h.1]
    exact ⟨fun j hj => hj, fun j _ => ⟨rfl, rfl⟩⟩
  | cons i rest ih =>
    intro st st' rs h
    simp only [processListO] at h
    split at h
    · cases h
    · rename_i step hf1
      split at h
      · cases h
      · rename_i tail hrest
        simp only [Option.some.injEq, Prod.mk.injEq] at h
        obtain ⟨hstep1, hstep2⟩ := hf st i step.1 step.2 (by rw [hf1])
        obtain ⟨htail1, htail2⟩ := ih step.1 tail.1 tail.2 hrest
        rw [← h.1]
        refine ⟨fun j hj => htail1 j (hstep1 j hj), fun j hj => ?_⟩
        have hj1 : j ∉ step.1.trace := fun hmem => hj (htail1 j hmem)
        obtain ⟨ht1, ht2⟩ := htail2 j hj
        obtain ⟨hs1, hs2⟩ := hstep2 j hj1
        rw [ht1, ht2, hs1, hs2]
        exact ⟨rfl, rfl⟩

theorem transformDiagFuel_trace_rel {n : Nat} (heap : Fin n → DiagData n)
    (files : FileRegistry) :
    ∀ (fuel : Nat) (st : TState n) (d : Fin n) (st' : TState n)
      (r : Option (TDiag n)),
      transformDiagFuel heap files fuel st d = some (st', r) →
      (∀ j, j ∈ st.trace → j ∈ st'.trace) ∧
      (∀ j, j ∉ st'.trace → st'.rel j = st.rel j ∧ st'.memo j = st.memo j) := by
  intro fuel
  induction fuel with
  | zero =>
    intro st d st' r h
    simp [transformDiagFuel] at h
  | succ fuel ih =>
    intro st d st' r h
    simp only [transformDiagFuel] at h
    split at h
    · rename_i r0 hmemo
      simp only [Option.some.injEq, Prod.mk.injEq] at h
      rw [← h.1]
      exact ⟨fun j hj => hj, fun j _ => ⟨rfl, rfl⟩⟩
    · rename_i hmemo
      split at h
      · rename_i hrel
        simp only [Option.some.injEq, Prod.mk.injEq] at h
        rw [← h.1]
        refine ⟨fun j hj => List.mem_append_left _ hj, fun j hj => ?_⟩
        have hjd : j ≠ d := by
          intro he
          exact hj (by rw [he]; exact List.mem_append_right _ (by simp))
        refine ⟨rfl, ?_⟩
        show Function.update (Function.update st.memo d (some none)) d _ j = st.memo j
        rw [Function.update_noteq hjd, Function.update_noteq hjd]
      · rename_i l hrel
        split at h
        · cases h
        · rename_i st2 rs hpl
          simp only [Option.some.injEq, Prod.mk.injEq] at h
          obtain ⟨hl1, hl2⟩ := processListO_trace_rel ih l _ st2 rs hpl
          rw [← h.1]
          constructor
          · intro j hj
            exact hl1 j (List.mem_append_left _ hj)
          · intro j hj
            have hjd : j ≠ d := by
              intro he
              exact hj (hl1 j (by rw [he]; exact List.mem_append_right _ (by simp)))
            obtain ⟨hr2, hm2⟩ := hl2 j hj
            constructor
            · show Function.update st2.rel d _ j = st.rel j
              rw [Function.update_noteq hjd, hr2]
            · show Function.update st2.memo d _ j = st.memo j
              rw [Function.update_noteq hjd, hm2]
              show Function.update st.memo d (some none) j = st.memo j
              rw [Function.update_noteq hjd]

theorem processListO_dinv {n : Nat}
    {f : TState n → Fin n → Option (TState n × Option (TDiag n))}
    (hf : ∀ st i st' r, f st i = some (st', r) →
      (st : TState n).trace.Nodup → (∀ j ∈ st.trace, (st.memo j).isSome) →
      st'.trace.Nodup ∧ (∀ j ∈ st'.trace, (st'.memo j).isSome)) :
    ∀ (l : List (Fin n)) (st st' : TState n) (rs : List (Option (TDiag n))),
      processListO f st l = some (st', rs) →
      st.trace.Nodup → (∀ j ∈ st.trace, (st.memo j).isSome) →
      st'.trace.Nodup ∧ (∀ j ∈ st'.trace, (st'.memo j).isSome) := by
  intro l
  induction l with
  | nil =>
    intro st st' rs h hn hm
    simp only [processListO, Option.some.injEq, Prod.mk.injEq] at h
    rw [← h.1]
    exact ⟨hn, hm⟩
  | cons i rest ih =>
    intro st st' rs h hn hm
    simp only [processListO] at h
    split at h
    · cases h
    · rename_i step hf1
      split at h
      · cases h
      · rename_i tail hrest
        simp only [Option.some.injEq, Prod.mk.injEq] at h
        obtain ⟨hn1, hm1⟩ := hf st i step.1 step.2 (by rw [hf1]) hn hm
        obtain ⟨hn2, hm2⟩ := ih step.1 tail.1 tail.2 hrest hn1 hm1
        rw [← h.1]
        exact ⟨hn2, hm2⟩

theorem transformDiagFuel_nodup {n : Nat} (heap : Fin n → DiagData n)
    (files : FileRegistry) :
    ∀ (fuel : Nat) (st : TState n) (d : Fin n) (st' : TState n)
      (r : Option (TDiag n)),
      transformDiagFuel heap files fuel st d = some (st', r) →
      st.trace.Nodup → (∀ j ∈ st.trace, (st.memo j).isSome) →
      st'.trace.Nodup ∧ (∀ j ∈ st'.trace, (st'.memo j).isSome) ∧
        (st'.memo d).isSome := by
  intro fuel
  induction fuel with
  | zero =>
    intro st d st' r h
    simp [transformDiagFuel] at h
  | succ fuel ih =>
    intro st d st' r h hn hm
    simp only [transformDiagFuel] at h
    split at h
    · rename_i r0 hmemo
      simp only [Option.some.injEq, Prod.mk.injEq] at h
      rw [← h.1]
      exact ⟨hn, hm, by rw [hmemo]; rfl⟩
    · rename_i hmemo
      have hdnotin : d ∉ st.trace := by
        intro hmem
        have := hm d hmem
        rw [hmemo] at this
        cases this
      have hn1 : (st.trace ++ [d]).Nodup := by
        rw [List.nodup_append]
        refine ⟨hn, by simp, ?_⟩
        intro a ha hb
        simp only [List.mem_singleton] at hb
        subst hb
        exact hdnotin ha
      have hm1 : ∀ j ∈ st.trace ++ [d],
          ((Function.update st.memo d (some none)) j).isSome := by
        intro j hj
        rcases List.mem_append.mp hj with hj | hj
        · exact isSome_update (hm j hj)
        · simp only [List.mem_singleton] at hj
          subst hj
          rw [Function.update_same]
          rfl
      split at h
      · rename_i hrel
        simp only [Option.some.injEq, Prod.mk.injEq] at h
        rw [← h.1]
        refine ⟨hn1, ?_, ?_⟩
        · intro j hj
          exact isSome_update (hm1 j hj)
        · show ((Function.update (Function.update st.memo d (some none)) d
            (some (spanResult heap files d none))) d).isSome
          rw [Function.update_same]
          rfl
      · rename_i l hrel
        split at h
        · cases h
        · rename_i st2 rs hpl
          simp only [Option.some.injEq, Prod.mk.injEq] at h
          obtain ⟨hn2, hm2⟩ := processListO_dinv
            (fun st i st' r hstep hna hmb =>
              ⟨(ih st i st' r hstep hna hmb).1, (ih st i st' r hstep hna hmb).2.1⟩)
            l _ st2 rs hpl hn1 hm1
          rw [← h.1]
          refine ⟨hn2, ?_, ?_⟩
          · intro j hj
            exact isSome_update (hm2 j hj)
          · show ((Function.update st2.memo d _) d).isSome
            rw [Function.update_same]
            rfl

/-- A one-node heap whose diagnostic's related-information list contains
the diagnostic itself. -/
def heapC3 : Fin 1 → DiagData 1 := fun _ => ⟨none, none, none, some [⟨0, by omega⟩]⟩

def d0C3 : Fin 1 := ⟨0, by omega⟩

/-- C3: transformDiagnostic terminates on every input, including
self-referential related-information graphs.  Any fuel above the number of
unmemoized identities suffices for the fuel recursion, so the fuel-free
entry point is always defined; on every successful run starting from a
duplicate-free processing trace the trace stays duplicate-free (each
distinct identity is computed at most once) and the queried diagnostic's
memo slot ends defined; and on the concrete self-referential diagnostic
the transform completes, the repeated occurrence resolves to no
translation (it is dropped from the related list), and the identity is
processed exactly once. -/
theorem C3_diagnostic_memoization :
    (∀ (n : Nat) (heap : Fin n → DiagData n) (files : FileRegistry) (fuel : Nat)
      (st : TState n) (d : Fin n),
      uncached st < fuel → (transformDiagFuel heap files fuel st d).isSome) ∧
    (∀ (n : Nat) (heap : Fin n → DiagData n) (files : FileRegistry)
      (st : TState n) (d : Fin n), (transformDiagnostic heap files st d).isSome) ∧
    (∀ (n : Nat) (heap : Fin n → DiagData n) (files : FileRegistry) (fuel : Nat)
      (st st' : TState n) (d : Fin n) (r : Option (TDiag n)),
      transformDiagFuel heap files fuel st d = some (st', r) →
      st.trace.Nodup → (∀ j ∈ st.trace, (st.memo j).isSome) →
      st'.trace.Nodup ∧ (∀ j ∈ st'.trace, (st'.memo j).isSome) ∧
        (st'.memo d).isSome) ∧
    ((transformDiagnostic heapC3 files3 (initState heapC3) d0C3).map
        (fun p => p.2) = some (some (.node d0C3)) ∧
      (transformDiagnostic heapC3 files3 (initState heapC3) d0C3).map
        (fun p => p.1.rel d0C3) = some (some []) ∧
      (transformDiagnostic heapC3 files3 (initState heapC3) d0C3).map
        (fun p => p.1.trace) = some [d0C3]) := by
  refine ⟨fun n heap files fuel st d h => transformDiagFuel_isSome heap files fuel st d h,
    fun n heap files st d =>
      transformDiagFuel_isSome heap files (uncached st + 1) st d (Nat.lt_succ_self _),
    fun n heap files fuel st st' d r h hn hm =>
      transformDiagFuel_nodup heap files fuel st d st' r h hn hm,
    by rfl, by rfl, by rfl⟩

/-- The result of the concrete self-referential run, used by the C3
witness. -/
def stC3run : TState 1 × Option (TDiag 1) :=
  (transformDiagnostic heapC3 files3 (initState heapC3) d0C3).getD
    (initState heapC3, none)

/-- Witness for C3: the fuel bound and the trace invariant discharged at
the concrete self-referential diagnostic. -/
theorem C3_witness :
    (transformDiagFuel heapC3 files3 2 (initState heapC3) d0C3).isSome ∧
    (stC3run.1.trace.Nodup ∧ (stC3run.1.memo d0C3).isSome) := by
  refine ⟨C3_diagnostic_memoization.1 1 heapC3 files3 2 (initState heapC3) d0C3
    (by decide), ?_⟩
  have h := C3_diagnostic_memoization.2.2.1 1 heapC3 files3
    (uncached (initState heapC3) + 1) (initState heapC3) stC3run.1 d0C3 stC3run.2
    (by rfl) (by simp [initState]) (by simp [initState])
  exact ⟨h.1, h.2.2⟩

/-- A three-node heap: node 0's related information holds node 1, whose
span lies on the registered generated document gen.ts but outside every
mapping; node 2 is untouched. -/
def heapC4 : Fin 3 → DiagData 3 := fun i =>
  if i.val = 0 then ⟨none, none, none, some [⟨1, by omega⟩]⟩
  else if i.val = 1 then ⟨some "gen.ts", some 100, some 1, none⟩
  else ⟨none, none, none, none⟩

def d0C4 : Fin 3 := ⟨0, by omega⟩

def d1C4 : Fin 3 := ⟨1, by omega⟩

def d2C4 : Fin 3 := ⟨2, by omega⟩

/-- C4 counterexample: transformDiagnostic mutates its input in place.  On
heapC4, node 1 fails to translate, so transforming node 0 reassigns node
0's relatedInformation field from the original one-element list to the
empty list, and returns node 0 itself (the same object) rather than a new
result object — the original's field is not left unchanged. -/
theorem C4_counterexample :
    (transformDiagnostic heapC4 files3 (initState heapC4) d0C4).map
        (fun p => p.1.rel d0C4) = some (some []) ∧
    (initState heapC4).rel d0C4 = some [TDiag.node d1C4] ∧
    (transformDiagnostic heapC4 files3 (initState heapC4) d0C4).map
        (fun p => p.2) = some (some (.node d0C4)) ∧
    some (some ([] : List (TDiag 3))) ≠ some (some [TDiag.node d1C4]) := by
  refine ⟨by rfl, by rfl, by rfl, ?_⟩
  intro h
  simp at h

/-- C4 amended: transformDiagnostic does mutate in place — it reassigns
the relatedInformation field of every diagnostic it processes — but the
mutation is confined to the processed diagnostics: for every node that the
run did not enter (it is absent from the processing trace), both the
relatedInformation field and the memo entry are left exactly as they were,
and previously processed nodes remain recorded.  (The span, batch-edit and
document-span transforms are pure functions of their inputs in this
model.) -/
theorem C4_transform_mutation :
    ∀ (n : Nat) (heap : Fin n → DiagData n) (files : FileRegistry) (fuel : Nat)
      (st : TState n) (d : Fin n) (st' : TState n) (r : Option (TDiag n)),
      transformDiagFuel heap files fuel st d = some (st', r) →
      (∀ j, j ∈ st.trace → j ∈ st'.trace) ∧
      (∀ j, j ∉ st'.trace → st'.rel j = st.rel j ∧ st'.memo j = st.memo j) :=
  fun n heap files fuel st d st' r h =>
    transformDiagFuel_trace_rel heap files fuel st d st' r h

/-- The result of the concrete heapC4 run, used by the C4 witness. -/
def stC4run : TState 3 × Option (TDiag 3) :=
  (transformDiagnostic heapC4 files3 (initState heapC4) d0C4).getD
    (initState heapC4, none)

/-- Witness for C4's amended theorem: node 2 is never processed in the
concrete run, and its field and memo entry are untouched. -/
theorem C4_witness :
    stC4run.1.rel d2C4 = (initState heapC4).rel d2C4 ∧
    stC4run.1.memo d2C4 = (initState heapC4).memo d2C4 := by
  have h := C4_transform_mutation 3 heapC4 files3 (uncached (initState heapC4) + 1)
    (initState heapC4) d0C4 stC4run.1 stC4run.2 (by rfl)
  exact h.2 d2C4 (by decide)
